import Mathlib

/-!
Verification development for `extract_perf_grid_search.py`: a command-line
utility that reads a tab-separated grid-search results table and, for each
MRR cut value, selects the fastest qualifying configuration.

Numeric idealization: Python floats are modelled as exact rationals (`ℚ`),
and the not-a-number value produced by `to_float_safe` on unparsable input
is modelled as `none : Option ℚ`.  All IEEE-754 comparisons involving NaN
are false, which the comparison functions `pyGe` / `pyLt` reproduce:
whenever an operand is `none` the comparison is `false`.
-/

namespace ExtractPerfGridSearch

/-- A row of the TSV table: a Python dict from column name to cell string,
modelled as an association list in insertion order (keys unique in practice). -/
abbrev Row := List (String × String)

/-- `r.get(k, d)` on a Python dict: the value at the first matching key,
or the default when the key is absent. -/
def Row.get : Row → String → String → String
  | [], _, d => d
  | (k0, v) :: rest, k, d => if k0 = k then v else Row.get rest k d

/-- `k in r` on a Python dict. -/
def Row.hasKey : Row → String → Bool
  | [], _ => false
  | (k0, _) :: rest, k => k0 = k || Row.hasKey rest k

/-- `r[k] = v` on a Python dict: update in place when the key exists,
append a new binding otherwise (dicts preserve insertion order). -/
def Row.set (r : Row) (k v : String) : Row :=
  if Row.hasKey r k then r.map (fun p => if p.1 = k then (p.1, v) else p)
  else r ++ [(k, v)]

/-! ### Parsing cells to numbers (`to_float_safe`) -/

def isDigitCh (c : Char) : Bool := '0' ≤ c && c ≤ '9'

def digVal (c : Char) : Nat := c.toNat - '0'.toNat

def digitsVal (ds : List Char) : Nat := ds.foldl (fun a c => 10 * a + digVal c) 0

def takeDigits (cs : List Char) : List Char × List Char :=
  (cs.takeWhile isDigitCh, cs.dropWhile isDigitCh)

def parseSignCh : List Char → Bool × List Char
  | '+' :: rest => (false, rest)
  | '-' :: rest => (true, rest)
  | cs => (false, cs)

/-- Python `float(s)` on finite decimal literals, idealized to an exact
rational: optional surrounding whitespace, an optional sign, a digit string
with optional fractional part (at least one digit overall), and an optional
decimal exponent.  Everything else yields `none`, the model's NaN.  (The
non-finite literals `inf`/`nan` and digit-group underscores accepted by
Python are outside the modelled fragment; `nan` in particular behaves
downstream exactly like the `none` this model assigns to it.) -/
def pyFloat? (s : String) : Option ℚ :=
  let cs := s.trim.toList
  let sign := parseSignCh cs
  let ipr := takeDigits sign.2
  let fpr :=
    match ipr.2 with
    | '.' :: rest => takeDigits rest
    | _ => ([], ipr.2)
  if ipr.1.isEmpty && fpr.1.isEmpty then none
  else
    let expr :=
      match fpr.2 with
      | [] => some ((0 : ℤ), ([] : List Char))
      | c :: rest =>
        if c = 'e' || c = 'E' then
          let esign := parseSignCh rest
          let edr := takeDigits esign.2
          if edr.1.isEmpty then none
          else some (if esign.1 then -(digitsVal edr.1 : ℤ) else (digitsVal edr.1 : ℤ), edr.2)
        else some ((0 : ℤ), fpr.2)
    match expr with
    | none => none
    | some (e, rest) =>
      if rest.isEmpty then
        let mant : ℚ := (digitsVal ipr.1 : ℚ) + (digitsVal fpr.1 : ℚ) / (10 : ℚ) ^ fpr.1.length
        let v : ℚ := mant * (10 : ℚ) ^ e
        some (if sign.1 then -v else v)
      else none

/-- `to_float_safe`: parse a cell to a float, mapping any failure to NaN
(modelled as `none`; Python's genuine NaN behaves identically downstream). -/
def to_float_safe (s : String) : Option ℚ := pyFloat? s

/-- IEEE `>=` with NaN as `none`: false whenever an operand is NaN. -/
def pyGe : Option ℚ → Option ℚ → Bool
  | some a, some b => decide (a ≥ b)
  | _, _ => false

/-- IEEE `<` with NaN as `none`: false whenever an operand is NaN. -/
def pyLt : Option ℚ → Option ℚ → Bool
  | some a, some b => decide (a < b)
  | _, _ => false

/-! ### The Best-Row Selector (`select_best_for_cut`) -/

/-- The key `to_float_safe(r.get(mrr_col, "nan"))` used in the filter. -/
def mrrKey (mrr_col : String) (r : Row) : Option ℚ :=
  to_float_safe (Row.get r mrr_col "nan")

/-- The key `to_float_safe(r.get(time_col, "nan"))` used in the minimum scan. -/
def timeKey (time_col : String) (r : Row) : Option ℚ :=
  to_float_safe (Row.get r time_col "nan")

/-- `filtered = [r for r in rows if to_float_safe(r.get(mrr_col, "nan")) >= cut]`. -/
def filteredRows (rows : List Row) (mrr_col : String) (cut : ℚ) : List Row :=
  rows.filter (fun r => pyGe (mrrKey mrr_col r) (some cut))

/-- Python `min(first :: rest, key)`: a left fold that replaces the current
best exactly when the candidate's key is strictly less than the best's key.
NaN keys (`none`) never compare less, so they never replace the best, and a
NaN-keyed initial candidate is never replaced. -/
def pyminKey {α : Type} (key : α → Option ℚ) (b : α) (l : List α) : α :=
  l.foldl (fun best r => if pyLt (key r) (key best) then r else best) b

/-- `select_best_for_cut(rows, mrr_col, time_col, cut)`: filter on MRR ≥ cut,
return `None` when nothing qualifies, else the `min` by parsed time. -/
def select_best_for_cut (rows : List Row) (mrr_col time_col : String) (cut : ℚ) :
    Option Row :=
  match filteredRows rows mrr_col cut with
  | [] => none
  | b :: rest => some (pyminKey (timeKey time_col) b rest)

/-! ### Cut generation and formatting -/

/-- Round-half-to-even to an integer, as Python's `round` (and `int(round(x))`
on the integral result). -/
def roundHalfEven (x : ℚ) : ℤ :=
  let f := ⌊x⌋
  let frac := x - (f : ℚ)
  if frac < 1/2 then f
  else if 1/2 < frac then f + 1
  else if f % 2 = 0 then f else f + 1

/-- Python `round(x, 6)`. -/
def pyRound6 (x : ℚ) : ℚ := (roundHalfEven (x * 1000000) : ℚ) / 1000000

/-- Left-pad with zeros to the given width. -/
def zeroPad (w : Nat) (s : String) : String :=
  String.mk (List.replicate (w - s.length) '0') ++ s

/-- Python `f"{x:.6f}"`: fixed-point with six fractional digits. -/
def format6 (x : ℚ) : String :=
  let n : ℤ := roundHalfEven (x * 1000000)
  let m := n.natAbs
  (if n < 0 then "-" else "") ++ toString (m / 1000000) ++ "." ++ zeroPad 6 (toString (m % 1000000))

/-- The default cut sequence: `start = 0.39`, `end = 0.404`, `step = 0.001`,
`steps = int(round((end - start) / step)) + 1`, then
`[round(start + i * step, 6) for i in range(0, steps)]`. -/
def defaultCuts : List ℚ :=
  let start : ℚ := 39/100
  let stop : ℚ := 404/1000
  let step : ℚ := 1/1000
  let steps : ℤ := roundHalfEven ((stop - start) / step) + 1
  (List.range steps.toNat).map (fun i => pyRound6 (start + (i : ℚ) * step))

/-- `sorted(set(cs))`: ascending list of the distinct values. -/
def sortedDedup (l : List ℚ) : List ℚ :=
  List.insertionSort (· ≤ ·) l.dedup

/-- `if args.cuts: cuts = sorted(set(args.cuts)) else: <default>` — the
`--cuts` argument is `None` when omitted and `[]` when supplied with no
values; both are falsy, so both take the default branch. -/
def determineCuts : Option (List ℚ) → List ℚ
  | some (c :: cs) => sortedDedup (c :: cs)
  | _ => defaultCuts

/-! ### The main pipeline -/

/-- The command-line arguments that reach the processing stage. -/
structure Args where
  cuts : Option (List ℚ)
  mrr_col : String
  time_col : String

/-- The body of the per-cut loop: the placeholder row
`{k: '/' for k in header}` with `mrr_cut` and the time column set, when no
row qualifies; otherwise `dict(best)` with `mrr_cut` set. -/
def resultRowFor (header : List String) (rows : List Row) (mrr_col time_col : String)
    (cut : ℚ) : Row :=
  match select_best_for_cut rows mrr_col time_col cut with
  | none =>
    Row.set (Row.set (header.map (fun k => (k, "/"))) "mrr_cut" (format6 cut)) time_col "/"
  | some best => Row.set best "mrr_cut" (format6 cut)

/-- The `results` list: one result row per cut, in cut order. -/
def resultsFor (header : List String) (rows : List Row) (mrr_col time_col : String)
    (cuts : List ℚ) : List Row :=
  cuts.map (resultRowFor header rows mrr_col time_col)

/-- `{k: r.get(k, "") for k in out_header}`, serialized in field order. -/
def writtenRow (out_header : List String) (r : Row) : List String :=
  out_header.map (fun k => Row.get r k "")

/-- Outcome of a run: a fatal configuration error (message printed to the
error stream, `sys.exit(code)`), or the written table. -/
inductive MainResult where
  | configError (msg : String) (code : Nat)
  | ok (outHeader : List String) (lines : List (List String))
  deriving DecidableEq

def MainResult.outHeader? : MainResult → Option (List String)
  | .configError _ _ => none
  | .ok h _ => some h

def MainResult.outLines : MainResult → Option (List (List String))
  | .configError _ _ => none
  | .ok _ ls => some ls

def MainResult.exitCode : MainResult → Nat
  | .configError _ c => c
  | .ok _ _ => 0

def MainResult.errorMsg? : MainResult → Option String
  | .configError m _ => some m
  | .ok _ _ => none

/-- `main` after the table has been loaded: validate the two column names
against the header (exit status 2 on failure, before any row processing),
determine the cuts, build one result row per cut, and serialize them under
the output header `["mrr_cut"] + header`. -/
def runMain (header : List String) (rows : List Row) (args : Args) : MainResult :=
  if args.mrr_col ∉ header then
    .configError ("Error: MRR column '" ++ args.mrr_col ++ "' not found in input header") 2
  else if args.time_col ∉ header then
    .configError ("Error: time column '" ++ args.time_col ++ "' not found in input header") 2
  else
    let cuts := determineCuts args.cuts
    let results := resultsFor header rows args.mrr_col args.time_col cuts
    let out_header := "mrr_cut" :: header
    .ok out_header (results.map (writtenRow out_header))

/-! ## Claim C3: the default cut sequence -/

/-- Claim C3 counterexample: with no `--cuts` argument the generated sequence
has 15 values, not the claimed 16 — the inclusive range 0.390…0.404 in steps
of 0.001 contains only 15 points. -/
theorem default_cut_count_not_sixteen : (determineCuts none).length ≠ 16 := by
  with_unfolding_all decide

set_option maxRecDepth 100000 in
/-- Claim C3 (amended): when no `--cuts` argument is given, the Cut Generator
produces exactly 15 values, the inclusive arithmetic sequence
0.390000, 0.391000, …, 0.404000 with step 0.001, each rounded to 6 decimal
places. -/
theorem default_cuts_values :
    determineCuts none =
      [390/1000, 391/1000, 392/1000, 393/1000, 394/1000, 395/1000, 396/1000,
       397/1000, 398/1000, 399/1000, 400/1000, 401/1000, 402/1000, 403/1000,
       404/1000] ∧
    (determineCuts none).length = 15 := by
  constructor <;> with_unfolding_all decide

/-! ## Claim C9: an explicitly empty `--cuts` list falls back to the default -/

/-- Claim C9: supplying `--cuts` with an empty list of values is treated the
same as omitting it — the empty list is falsy, so the default cut sequence is
generated instead of evaluating zero cuts. -/
theorem empty_cuts_same_as_omitted :
    determineCuts (some []) = determineCuts none ∧
    determineCuts (some []) = defaultCuts :=
  ⟨rfl, rfl⟩

/-! ## Claim C4: one output data row per cut -/

/-- Claim C4: whenever the run succeeds (both requested columns exist in the
header), the number of data rows written equals the number of cuts
evaluated. -/
theorem output_row_count_eq_cuts (header : List String) (rows : List Row)
    (args : Args) (h1 : args.mrr_col ∈ header) (h2 : args.time_col ∈ header) :
    (runMain header rows args).outLines.map List.length
      = some (determineCuts args.cuts).length := by
  simp [runMain, h1, h2, MainResult.outLines, resultsFor]

theorem output_row_count_eq_cuts_witness :
    ("m" ∈ ["m", "t"]) ∧ ("t" ∈ ["m", "t"]) ∧
    ((runMain ["m", "t"] [] ⟨none, "m", "t"⟩).outLines.map List.length
      = some (determineCuts none).length) :=
  ⟨by decide, by decide,
    output_row_count_eq_cuts ["m", "t"] [] ⟨none, "m", "t"⟩ (by decide) (by decide)⟩

/-! ## Claim C5: a missing column is a fatal configuration error -/

/-- Claim C5: if the requested MRR column or the requested time column is
absent from the input header, the run produces an error message, exits with
status 2, and writes no rows to the output target. -/
theorem missing_column_error (header : List String) (rows : List Row)
    (args : Args) (h : args.mrr_col ∉ header ∨ args.time_col ∉ header) :
    (runMain header rows args).outLines = none ∧
    (runMain header rows args).exitCode = 2 ∧
    ((runMain header rows args).errorMsg?).isSome := by
  rcases h with h | h
  · simp [runMain, h, MainResult.outLines, MainResult.exitCode, MainResult.errorMsg?]
  · by_cases hm : args.mrr_col ∈ header
    · simp [runMain, hm, h, MainResult.outLines, MainResult.exitCode, MainResult.errorMsg?]
    · simp [runMain, hm, MainResult.outLines, MainResult.exitCode, MainResult.errorMsg?]

theorem missing_column_error_witness :
    (("m" : String) ∉ ["a"] ∨ ("t" : String) ∉ ["a"]) ∧
    ((runMain ["a"] [] ⟨none, "m", "t"⟩).outLines = none ∧
     (runMain ["a"] [] ⟨none, "m", "t"⟩).exitCode = 2 ∧
     ((runMain ["a"] [] ⟨none, "m", "t"⟩).errorMsg?).isSome) :=
  ⟨Or.inl (by decide), missing_column_error ["a"] [] ⟨none, "m", "t"⟩ (Or.inl (by decide))⟩

/-! ## Claim C7: shape of the output header -/

/-- Claim C7: on a successful run the output header is the column `mrr_cut`
followed by the input file's original header columns in their original
order. -/
theorem output_header_shape (header : List String) (rows : List Row)
    (args : Args) (h1 : args.mrr_col ∈ header) (h2 : args.time_col ∈ header) :
    (runMain header rows args).outHeader? = some ("mrr_cut" :: header) := by
  simp [runMain, h1, h2, MainResult.outHeader?]

theorem output_header_shape_witness :
    ("m" ∈ ["m", "t"]) ∧ ("t" ∈ ["m", "t"]) ∧
    ((runMain ["m", "t"] [] ⟨none, "m", "t"⟩).outHeader?
      = some ["mrr_cut", "m", "t"]) :=
  ⟨by decide, by decide,
    output_header_shape ["m", "t"] [] ⟨none, "m", "t"⟩ (by decide) (by decide)⟩

/-! ## The minimum scan and NaN keys -/

theorem pyLt_left_isSome {a b : Option ℚ} (h : pyLt a b = true) : a.isSome := by
  cases a <;> cases b <;> simp [pyLt] at h ⊢

theorem pymin_cons {α : Type} (key : α → Option ℚ) (b x : α) (xs : List α) :
    pyminKey key b (x :: xs)
      = pyminKey key (if pyLt (key x) (key b) then x else b) xs := rfl

/-- The minimum scan only ever returns the initial candidate or a scanned
element. -/
theorem pymin_mem {α : Type} (key : α → Option ℚ) :
    ∀ (l : List α) (b : α), pyminKey key b l ∈ b :: l := by
  intro l
  induction l with
  | nil => intro b; simp [pyminKey]
  | cons x xs ih =>
    intro b
    rw [pymin_cons]
    rcases List.mem_cons.mp (ih (if pyLt (key x) (key b) then x else b)) with h | h
    · rw [h]; split <;> simp
    · exact List.mem_cons_of_mem _ (List.mem_cons_of_mem _ h)

/-- If the minimum scan's result has a NaN key, it is the initial candidate:
every replacement during the scan requires a strictly smaller — hence
non-NaN — key. -/
theorem pymin_none_eq_init {α : Type} (key : α → Option ℚ) :
    ∀ (l : List α) (b : α), key (pyminKey key b l) = none → pyminKey key b l = b := by
  intro l
  induction l with
  | nil => intro b _; rfl
  | cons x xs ih =>
    intro b h
    rw [pymin_cons] at h ⊢
    have hinit := ih _ h
    rw [hinit] at h ⊢
    by_cases hc : pyLt (key x) (key b) = true
    · rw [if_pos hc] at h
      have hs := pyLt_left_isSome hc
      rw [h] at hs
      simp at hs
    · rw [if_neg hc]

/-! ## Claims C2 and C10: rows with unparsable time values -/

/-- Qualifying rows whose time cell does not parse, the one with the
unparsable time listed first. -/
def nanFirstRows : List Row :=
  [[("m", "0.5"), ("t", "x")], [("m", "0.5"), ("t", "50")]]

def nanRow : Row := [("m", "0.5"), ("t", "x")]

def numRow : Row := [("m", "0.5"), ("t", "50")]

/-- Claim C2 counterexample: with cut 0.4, both rows qualify, the second has
the parsable time 50, yet the selector returns the first row, whose time is
unparsable (NaN): `min` never replaces an initial candidate whose key is NaN,
because `50 < NaN` is false. -/
theorem select_nan_time_cex :
    select_best_for_cut nanFirstRows "m" "t" (2/5) = some nanRow ∧
    numRow ∈ filteredRows nanFirstRows "m" (2/5) ∧
    timeKey "t" numRow = some 50 ∧
    timeKey "t" nanRow = none ∧
    nanRow ≠ numRow := by
  with_unfolding_all decide

/-- Claim C2 (amended): a qualifying row with an unparsable (NaN) time value
is selected as best only when it is the first qualifying row in input order;
whenever any qualifying row precedes it — in particular one with a parsable
time — it is never selected. -/
theorem select_nan_time_only_if_first (rows : List Row) (mrr_col time_col : String)
    (cut : ℚ) (b : Row)
    (h1 : select_best_for_cut rows mrr_col time_col cut = some b)
    (h2 : timeKey time_col b = none) :
    (filteredRows rows mrr_col cut).head? = some b := by
  rcases hf : filteredRows rows mrr_col cut with _ | ⟨c, rest⟩
  · simp only [select_best_for_cut, hf] at h1
    exact Option.noConfusion h1
  · simp only [select_best_for_cut, hf, Option.some.injEq] at h1
    rw [← h1] at h2
    have := pymin_none_eq_init (timeKey time_col) rest c h2
    rw [List.head?_cons, ← h1, this]

theorem select_nan_time_only_if_first_witness :
    (select_best_for_cut nanFirstRows "m" "t" (2/5) = some nanRow) ∧
    (timeKey "t" nanRow = none) ∧
    ((filteredRows nanFirstRows "m" (2/5)).head? = some nanRow) :=
  ⟨by with_unfolding_all decide, by with_unfolding_all decide,
    select_nan_time_only_if_first nanFirstRows "m" "t" (2/5) nanRow
      (by with_unfolding_all decide) (by with_unfolding_all decide)⟩

/-- Qualifying rows none of whose time cells parse. -/
def allNanRows : List Row :=
  [[("m", "0.5"), ("t", "x")], [("m", "0.5"), ("t", "y")]]

/-- Claim C10: when the set of qualifying rows is non-empty and every
qualifying row has an unparsable (NaN) time value, the selector
deterministically returns the first qualifying row in input order: the
minimum scan never replaces its initial candidate, since every comparison
against a NaN key is false. -/
theorem select_all_nan_returns_first (rows : List Row) (mrr_col time_col : String)
    (cut : ℚ) (hne : filteredRows rows mrr_col cut ≠ [])
    (hall : ∀ r ∈ filteredRows rows mrr_col cut, timeKey time_col r = none) :
    select_best_for_cut rows mrr_col time_col cut
      = (filteredRows rows mrr_col cut).head? := by
  rcases hf : filteredRows rows mrr_col cut with _ | ⟨c, rest⟩
  · exact absurd hf hne
  · have hmem := pymin_mem (timeKey time_col) rest c
    have hnone : timeKey time_col (pyminKey (timeKey time_col) c rest) = none := by
      apply hall
      rw [hf]
      exact hmem
    have hinit := pymin_none_eq_init (timeKey time_col) rest c hnone
    simp only [select_best_for_cut, hf, List.head?_cons, hinit]

theorem select_all_nan_returns_first_witness :
    (filteredRows allNanRows "m" (2/5) ≠ []) ∧
    (∀ r ∈ filteredRows allNanRows "m" (2/5), timeKey "t" r = none) ∧
    (select_best_for_cut allNanRows "m" "t" (2/5)
      = (filteredRows allNanRows "m" (2/5)).head?) :=
  ⟨by with_unfolding_all decide, by with_unfolding_all decide,
    select_all_nan_returns_first allNanRows "m" "t" (2/5)
      (by with_unfolding_all decide) (by with_unfolding_all decide)⟩

/-! ## Claim C1: the selector as a stable minimum -/

/-- The minimum scan specialized to total (never-NaN) rational keys. -/
def qminKey {α : Type} (key : α → ℚ) (b : α) (l : List α) : α :=
  l.foldl (fun best r => if key r < key best then r else best) b

theorem qmin_cons {α : Type} (key : α → ℚ) (b x : α) (xs : List α) :
    qminKey key b (x :: xs) = qminKey key (if key x < key b then x else b) xs := rfl

/-- In any first-occurrence decomposition, the selected element's key is at
most the head's key. -/
theorem first_min_le_head {α : Type} (key : α → ℚ) {b m : α} {l l1 l2 : List α}
    (hdec : b :: l = l1 ++ m :: l2) (h1 : ∀ r ∈ l1, key m < key r) :
    key m ≤ key b := by
  cases l1 with
  | nil =>
    have hb : b = m := by
      have := congrArg List.head? hdec
      simpa using this
    rw [hb]
  | cons a t =>
    have hb : b = a := by
      have := congrArg List.head? hdec
      simpa using this
    exact le_of_lt (hb ▸ h1 a (List.mem_cons_self a t))

/-- The scan over total keys returns the first element attaining the minimal
key: the input splits around the result, with strictly larger keys before it
and keys at least as large after it. -/
theorem qmin_split {α : Type} (key : α → ℚ) :
    ∀ (l : List α) (b : α) {m : α}, qminKey key b l = m →
      ∃ l1 l2, b :: l = l1 ++ m :: l2 ∧
        (∀ r ∈ l1, key m < key r) ∧
        (∀ r ∈ l2, key m ≤ key r) := by
  intro l
  induction l with
  | nil =>
    intro b m hm
    exact ⟨[], [], by rw [← hm]; rfl, by simp, by simp⟩
  | cons x xs ih =>
    intro b m hm
    rw [qmin_cons] at hm
    by_cases hx : key x < key b
    · rw [if_pos hx] at hm
      obtain ⟨l1, l2, hdec, h1, h2⟩ := ih x hm
      refine ⟨b :: l1, l2, ?_, ?_, h2⟩
      · rw [List.cons_append, ← hdec]
      · intro r hr
        rcases List.mem_cons.mp hr with hr | hr
        · rw [hr]
          exact lt_of_le_of_lt (first_min_le_head key hdec h1) hx
        · exact h1 r hr
    · rw [if_neg hx] at hm
      have hbx : key b ≤ key x := le_of_not_lt hx
      obtain ⟨l1, l2, hdec, h1, h2⟩ := ih b hm
      cases l1 with
      | nil =>
        simp only [List.nil_append] at hdec
        obtain ⟨hb, hl2⟩ := List.cons.inj hdec
        refine ⟨[], x :: l2, ?_, by simp, ?_⟩
        · rw [List.nil_append, ← hb, ← hl2]
        · intro r hr
          rcases List.mem_cons.mp hr with hr | hr
          · rw [hr, ← hb]
            exact hbx
          · exact h2 r hr
      | cons a t =>
        simp only [List.cons_append] at hdec
        obtain ⟨hb, hxs⟩ := List.cons.inj hdec
        refine ⟨b :: x :: t, l2, ?_, ?_, h2⟩
        · rw [List.cons_append, List.cons_append, ← hxs]
        · intro r hr
          rcases List.mem_cons.mp hr with hr | hr
          · rw [hr, hb]
            exact h1 a (List.mem_cons_self a t)
          · rcases List.mem_cons.mp hr with hr | hr
            · rw [hr]
              refine lt_of_lt_of_le ?_ hbx
              rw [hb]
              exact h1 a (List.mem_cons_self a t)
            · exact h1 r (List.mem_cons_of_mem a hr)

/-- When no key is NaN, the NaN-aware scan agrees with the scan over the
underlying rational keys. -/
theorem pymin_eq_qmin {α : Type} (key : α → Option ℚ) :
    ∀ (l : List α) (b : α), (∀ a ∈ b :: l, (key a).isSome) →
      pyminKey key b l = qminKey (fun a => (key a).getD 0) b l := by
  intro l
  induction l with
  | nil => intro b _; rfl
  | cons x xs ih =>
    intro b h
    obtain ⟨qb, hqb⟩ := Option.isSome_iff_exists.mp (h b (List.mem_cons_self _ _))
    obtain ⟨qx, hqx⟩ :=
      Option.isSome_iff_exists.mp (h x (List.mem_cons_of_mem _ (List.mem_cons_self _ _)))
    rw [pymin_cons, qmin_cons]
    have hcond : (pyLt (key x) (key b) = true) ↔ ((key x).getD 0 < (key b).getD 0) := by
      rw [hqb, hqx]
      simp [pyLt]
    have hsame : (if pyLt (key x) (key b) then x else b)
        = (if (key x).getD 0 < (key b).getD 0 then x else b) := by
      by_cases hc : pyLt (key x) (key b) = true
      · rw [if_pos hc, if_pos (hcond.mp hc)]
      · rw [if_neg hc, if_neg (fun hq => hc (hcond.mpr hq))]
    rw [hsame]
    apply ih
    intro a ha
    rcases List.mem_cons.mp ha with ha | ha
    · rw [ha]
      split
      · exact h x (List.mem_cons_of_mem _ (List.mem_cons_self _ _))
      · exact h b (List.mem_cons_self _ _)
    · exact h a (List.mem_cons_of_mem _ (List.mem_cons_of_mem _ ha))

/-- Claim C1 counterexample: with cut 0.4 both rows of `nanFirstRows`
qualify; the unique row with minimal parsed time is the second (time 50),
but the selector returns the first, whose time cell does not parse at all
(NaN): its key compares neither below nor above the other's. -/
theorem select_best_min_time_cex :
    select_best_for_cut nanFirstRows "m" "t" (2/5) = some nanRow ∧
    nanRow ≠ numRow ∧
    numRow ∈ filteredRows nanFirstRows "m" (2/5) ∧
    timeKey "t" numRow = some 50 ∧
    timeKey "t" nanRow = none ∧
    pyGe (timeKey "t" numRow) (timeKey "t" nanRow) = false := by
  with_unfolding_all decide

/-- Claim C1 (amended): provided every qualifying row has a parsable time
value, the selector returns none exactly when no row has parsed MRR ≥ cut,
and otherwise the first qualifying row (in input order) whose parsed time is
minimal among the qualifying rows: every earlier qualifying row has a
strictly larger parsed time, and every later one a parsed time at least as
large (stable minimum). -/
theorem select_best_stable_minimum (rows : List Row) (mrr_col time_col : String)
    (cut : ℚ)
    (h : ∀ r ∈ filteredRows rows mrr_col cut, (timeKey time_col r).isSome) :
    (filteredRows rows mrr_col cut = [] →
      select_best_for_cut rows mrr_col time_col cut = none) ∧
    ∀ b, select_best_for_cut rows mrr_col time_col cut = some b →
      ∃ l1 l2, filteredRows rows mrr_col cut = l1 ++ b :: l2 ∧
        (∀ r ∈ l1, (timeKey time_col b).getD 0 < (timeKey time_col r).getD 0) ∧
        (∀ r ∈ l2, (timeKey time_col b).getD 0 ≤ (timeKey time_col r).getD 0) := by
  constructor
  · intro he
    simp [select_best_for_cut, he]
  · intro b hb
    rcases hf : filteredRows rows mrr_col cut with _ | ⟨c, rest⟩
    · simp only [select_best_for_cut, hf] at hb
      exact Option.noConfusion hb
    · simp only [select_best_for_cut, hf, Option.some.injEq] at hb
      rw [hf] at h
      rw [pymin_eq_qmin (timeKey time_col) rest c h] at hb
      obtain ⟨l1, l2, hdec, h1, h2⟩ :=
        qmin_split (fun r => (timeKey time_col r).getD 0) rest c hb
      exact ⟨l1, l2, hdec, h1, h2⟩

/-- The row set from the specification's worked example: MRR values
0.30, 0.40, 0.41 with times 100, 50, 80. -/
def specExampleRows : List Row :=
  [[("mrr@10", "0.30"), ("avg_query_time_ns", "100")],
   [("mrr@10", "0.40"), ("avg_query_time_ns", "50")],
   [("mrr@10", "0.41"), ("avg_query_time_ns", "80")]]

theorem select_best_stable_minimum_witness :
    (∀ r ∈ filteredRows specExampleRows "mrr@10" (2/5),
      (timeKey "avg_query_time_ns" r).isSome) ∧
    ((filteredRows specExampleRows "mrr@10" (2/5) = [] →
      select_best_for_cut specExampleRows "mrr@10" "avg_query_time_ns" (2/5) = none) ∧
     ∀ b, select_best_for_cut specExampleRows "mrr@10" "avg_query_time_ns" (2/5) = some b →
      ∃ l1 l2, filteredRows specExampleRows "mrr@10" (2/5) = l1 ++ b :: l2 ∧
        (∀ r ∈ l1,
          (timeKey "avg_query_time_ns" b).getD 0 < (timeKey "avg_query_time_ns" r).getD 0) ∧
        (∀ r ∈ l2,
          (timeKey "avg_query_time_ns" b).getD 0 ≤ (timeKey "avg_query_time_ns" r).getD 0)) :=
  ⟨by with_unfolding_all decide,
    select_best_stable_minimum specExampleRows "mrr@10" "avg_query_time_ns" (2/5)
      (by with_unfolding_all decide)⟩

/-! ## Claim C6: placeholder rows -/

theorem hasKey_append (r1 r2 : Row) (k : String) :
    Row.hasKey (r1 ++ r2) k = (Row.hasKey r1 k || Row.hasKey r2 k) := by
  induction r1 with
  | nil => simp [Row.hasKey]
  | cons p t ih =>
    cases p
    simp [Row.hasKey, ih, Bool.or_assoc]

theorem hasKey_map_const_true {header : List String} {k : String} (h : k ∈ header)
    (c : String) : Row.hasKey (header.map (fun h0 => (h0, c))) k = true := by
  induction header with
  | nil => cases h
  | cons a t ih =>
    rcases List.mem_cons.mp h with h | h
    · simp [Row.hasKey, h]
    · simp [Row.hasKey, ih h]

theorem hasKey_map_const_false {header : List String} {k : String} (h : k ∉ header)
    (c : String) : Row.hasKey (header.map (fun h0 => (h0, c))) k = false := by
  induction header with
  | nil => rfl
  | cons a t ih =>
    have h1 : ¬(a = k) := fun e => h (by rw [← e]; exact List.mem_cons_self a t)
    have h2 : k ∉ t := fun e => h (List.mem_cons_of_mem a e)
    simp [Row.hasKey, h1, ih h2]

theorem set_of_not_hasKey {r : Row} {k : String} (h : Row.hasKey r k = false)
    (v : String) : Row.set r k v = r ++ [(k, v)] := by
  simp [Row.set, h]

theorem get_map_const_of_mem {header : List String} {k : String} (h : k ∈ header)
    (c : String) (rest : Row) (d : String) :
    Row.get (header.map (fun h0 => (h0, c)) ++ rest) k d = c := by
  induction header with
  | nil => cases h
  | cons a t ih =>
    by_cases hak : a = k
    · simp [Row.get, hak]
    · rcases List.mem_cons.mp h with h | h
      · exact absurd h.symm hak
      · simp [Row.get, hak, ih h]

theorem get_append_of_not_hasKey {r1 : Row} {k : String}
    (h : Row.hasKey r1 k = false) (r2 : Row) (d : String) :
    Row.get (r1 ++ r2) k d = Row.get r2 k d := by
  induction r1 with
  | nil => rfl
  | cons p t ih =>
    cases p with
    | mk k0 v =>
      simp only [Row.hasKey, Bool.or_eq_false_iff, decide_eq_false_iff_not] at h
      simp [Row.get, h.1, ih h.2]

theorem map_update_const (header : List String) (t c : String) :
    (header.map (fun h0 => (h0, c))).map
        (fun p => if p.1 = t then (p.1, c) else p)
      = header.map (fun h0 => (h0, c)) := by
  induction header with
  | nil => rfl
  | cons a hs ih =>
    by_cases hat : a = t <;> simp [hat, ih]

/-- For a cut with no qualifying rows, the emitted result row is the fresh
placeholder dict with every header column mapped to `/`, extended with the
formatted cut label. -/
theorem resultRow_of_no_match {header : List String} {rows : List Row}
    {mrr_col time_col : String} {cut : ℚ}
    (h1 : time_col ∈ header) (h2 : "mrr_cut" ∉ header)
    (h3 : filteredRows rows mrr_col cut = []) :
    resultRowFor header rows mrr_col time_col cut
      = header.map (fun h0 => (h0, "/")) ++ [("mrr_cut", format6 cut)] := by
  have hsel : select_best_for_cut rows mrr_col time_col cut = none := by
    simp [select_best_for_cut, h3]
  have hbase : Row.hasKey (header.map (fun h0 => (h0, "/"))) "mrr_cut" = false :=
    hasKey_map_const_false h2 "/"
  have htime_ne : ¬("mrr_cut" = time_col) := fun e => h2 (by rw [e]; exact h1)
  have hkey : Row.hasKey
      (header.map (fun h0 => (h0, "/")) ++ [("mrr_cut", format6 cut)]) time_col = true := by
    rw [hasKey_append, hasKey_map_const_true h1]
    rfl
  simp only [resultRowFor, hsel]
  rw [set_of_not_hasKey hbase]
  simp only [Row.set, hkey, if_true, List.map_append, map_update_const,
    List.map_cons, List.map_nil]
  rw [if_neg htime_ne]

/-- Claim C6: for every cut with zero qualifying rows, the results contain a
placeholder row in which every original header field — the time column
included — holds the literal marker `/`, and whose `mrr_cut` field holds the
cut formatted to six decimal places; such a cut is processed like any other,
not as an error. -/
theorem placeholder_row_for_no_match (header : List String) (rows : List Row)
    (mrr_col time_col : String) (cuts : List ℚ) (cut : ℚ)
    (h1 : time_col ∈ header) (h2 : "mrr_cut" ∉ header)
    (h3 : filteredRows rows mrr_col cut = []) (h4 : cut ∈ cuts) :
    ∃ p ∈ resultsFor header rows mrr_col time_col cuts,
      (∀ k ∈ header, Row.get p k "" = "/") ∧
      Row.get p "mrr_cut" "" = format6 cut := by
  refine ⟨resultRowFor header rows mrr_col time_col cut,
    List.mem_map_of_mem _ h4, ?_, ?_⟩
  · intro k hk
    rw [resultRow_of_no_match h1 h2 h3]
    exact get_map_const_of_mem hk "/" _ ""
  · rw [resultRow_of_no_match h1 h2 h3,
      get_append_of_not_hasKey (hasKey_map_const_false h2 "/")]
    simp [Row.get]

theorem placeholder_row_for_no_match_witness :
    ("t" ∈ ["m", "t"]) ∧ ("mrr_cut" ∉ ["m", "t"]) ∧
    (filteredRows [] "m" (1/2) = []) ∧ ((1 : ℚ)/2 ∈ [(1 : ℚ)/2]) ∧
    (∃ p ∈ resultsFor ["m", "t"] [] "m" "t" [(1 : ℚ)/2],
      (∀ k ∈ ["m", "t"], Row.get p k "" = "/") ∧
      Row.get p "mrr_cut" "" = format6 (1/2)) :=
  ⟨by decide, by decide, rfl, by with_unfolding_all decide,
    placeholder_row_for_no_match ["m", "t"] [] "m" "t" [(1 : ℚ)/2] (1/2)
      (by decide) (by decide) rfl (by with_unfolding_all decide)⟩

/-! ## Claim C8: input rows are never mutated in place

To make mutation observable, the per-cut loop is re-embedded over an
explicit heap of dict objects: the first `n` cells are the loaded input
rows, `dict(...)` literals and `dict(best)` copies allocate fresh cells, and
item assignment updates a cell in place.  Had the loop written through the
reference returned by `min` instead of a copy, the corresponding input cell
would change. -/

/-- A heap of dict objects plus the references of the emitted result rows. -/
structure PState where
  heap : List Row
  resultRefs : List Nat

/-- Allocate a fresh dict object, returning its reference. -/
def alloc (s : PState) (r : Row) : PState × Nat :=
  ({ s with heap := s.heap ++ [r] }, s.heap.length)

/-- `obj[k] = v` on the dict at reference `i`: an in-place heap update. -/
def heapSet (s : PState) (i : Nat) (k v : String) : PState :=
  { s with heap := s.heap.set i (Row.set (s.heap.getD i []) k v) }

/-- The selector over the first `n` heap cells, returning the reference of
the chosen row (Python's `min` returns the row object itself). -/
def select_best_ref (heap : List Row) (n : Nat) (mrr_col time_col : String)
    (cut : ℚ) : Option Nat :=
  match (List.range n).filter
      (fun i => pyGe (mrrKey mrr_col (heap.getD i [])) (some cut)) with
  | [] => none
  | i :: rest => some (pyminKey (fun j => timeKey time_col (heap.getD j [])) i rest)

/-- One iteration of the per-cut loop with allocation made explicit: the
no-match branch builds a fresh placeholder dict and assigns `mrr_cut` and
the time column on it; the match branch copies the best row (`dict(best)`)
and assigns `mrr_cut` on the copy. -/
def stepCut (header : List String) (n : Nat) (mrr_col time_col : String)
    (s : PState) (cut : ℚ) : PState :=
  match select_best_ref s.heap n mrr_col time_col cut with
  | none =>
    let a1 := alloc s (header.map (fun k => (k, "/")))
    let s2 := heapSet a1.1 a1.2 "mrr_cut" (format6 cut)
    let s3 := heapSet s2 a1.2 time_col "/"
    { s3 with resultRefs := s3.resultRefs ++ [a1.2] }
  | some bi =>
    let a1 := alloc s (s.heap.getD bi [])
    let s2 := heapSet a1.1 a1.2 "mrr_cut" (format6 cut)
    { s2 with resultRefs := s2.resultRefs ++ [a1.2] }

/-- The whole per-cut loop, started on the heap of loaded input rows. -/
def processCuts (header : List String) (rows : List Row)
    (mrr_col time_col : String) (cuts : List ℚ) : PState :=
  cuts.foldl (stepCut header rows.length mrr_col time_col) ⟨rows, []⟩

theorem getD_append_left : ∀ (l l2 : List Row) (i : Nat), i < l.length →
    (l ++ l2).getD i [] = l.getD i []
  | [], _, i, h => absurd h (by simp)
  | _ :: _, _, 0, _ => rfl
  | _ :: t, l2, i + 1, h => getD_append_left t l2 i (by simpa using h)

theorem getD_set_ne : ∀ (l : List Row) (j i : Nat) (x : Row), i ≠ j →
    (l.set j x).getD i [] = l.getD i []
  | [], _, _, _, _ => rfl
  | _ :: _, 0, 0, _, h => absurd rfl h
  | _ :: _, 0, _ + 1, _, _ => rfl
  | _ :: _, _ + 1, 0, _, _ => rfl
  | _ :: t, j + 1, i + 1, x, h => getD_set_ne t j i x (fun e => h (by rw [e]))

/-- One loop iteration leaves every cell below the input bound unchanged:
both in-place updates land on the freshly allocated cell, whose reference
lies past the input region. -/
theorem stepCut_heap_getD (header : List String) (n : Nat)
    (mrr_col time_col : String) (cut : ℚ) (s : PState) (hn : n ≤ s.heap.length)
    (i : Nat) (hi : i < n) :
    (stepCut header n mrr_col time_col s cut).heap.getD i [] = s.heap.getD i [] := by
  have hil : i < s.heap.length := lt_of_lt_of_le hi hn
  have hij : i ≠ s.heap.length := Nat.ne_of_lt hil
  unfold stepCut
  cases select_best_ref s.heap n mrr_col time_col cut with
  | none =>
    simp only [alloc, heapSet]
    rw [getD_set_ne _ _ _ _ hij, getD_set_ne _ _ _ _ hij,
      getD_append_left _ _ _ hil]
  | some bi =>
    simp only [alloc, heapSet]
    rw [getD_set_ne _ _ _ _ hij, getD_append_left _ _ _ hil]

theorem stepCut_heap_length (header : List String) (n : Nat)
    (mrr_col time_col : String) (cut : ℚ) (s : PState) (hn : n ≤ s.heap.length) :
    n ≤ (stepCut header n mrr_col time_col s cut).heap.length := by
  unfold stepCut
  cases select_best_ref s.heap n mrr_col time_col cut with
  | none =>
    simp only [alloc, heapSet, List.length_set, List.length_append, List.length_cons]
    omega
  | some bi =>
    simp only [alloc, heapSet, List.length_set, List.length_append, List.length_cons]
    omega

theorem foldl_stepCut_preserves (header : List String) (n : Nat)
    (mrr_col time_col : String) :
    ∀ (cuts : List ℚ) (s : PState), n ≤ s.heap.length →
      n ≤ (cuts.foldl (stepCut header n mrr_col time_col) s).heap.length ∧
      ∀ i < n, (cuts.foldl (stepCut header n mrr_col time_col) s).heap.getD i []
        = s.heap.getD i [] := by
  intro cuts
  induction cuts with
  | nil => exact fun s hs => ⟨hs, fun i _ => rfl⟩
  | cons c cs ih =>
    intro s hs
    have h1 := stepCut_heap_length header n mrr_col time_col c s hs
    obtain ⟨hl, hp⟩ := ih (stepCut header n mrr_col time_col s c) h1
    refine ⟨hl, fun i hi => ?_⟩
    calc (List.foldl (stepCut header n mrr_col time_col) s (c :: cs)).heap.getD i []
        = (List.foldl (stepCut header n mrr_col time_col)
            (stepCut header n mrr_col time_col s c) cs).heap.getD i [] := rfl
      _ = (stepCut header n mrr_col time_col s c).heap.getD i [] := hp i hi
      _ = s.heap.getD i [] := stepCut_heap_getD header n mrr_col time_col c s hs i hi

/-- Claim C8: the loaded input rows are never mutated in place.  Every
result row lives in a freshly allocated cell — `dict(best)` copies the
selected row and the placeholder is a fresh dict literal — so after
processing, every input row cell holds exactly the row as loaded. -/
theorem input_rows_never_mutated (header : List String) (rows : List Row)
    (mrr_col time_col : String) (cuts : List ℚ) (i : Nat) (hi : i < rows.length) :
    (processCuts header rows mrr_col time_col cuts).heap.getD i []
      = rows.getD i [] :=
  (foldl_stepCut_preserves header rows.length mrr_col time_col cuts
    ⟨rows, []⟩ (le_refl _)).2 i hi

theorem input_rows_never_mutated_witness :
    (0 < [[("m", "0.5"), ("t", "7")]].length) ∧
    ((processCuts ["m", "t"] [[("m", "0.5"), ("t", "7")]] "m" "t"
        [(1 : ℚ)/2]).heap.getD 0 [] = [("m", "0.5"), ("t", "7")]) :=
  ⟨by decide,
    input_rows_never_mutated ["m", "t"] [[("m", "0.5"), ("t", "7")]] "m" "t"
      [(1 : ℚ)/2] 0 (by decide)⟩

end ExtractPerfGridSearch
